import Mathlib

/-!
Verification development for the crossword CSP solver
(`CrosswordCreator` in `generate.py`).

Modelling conventions:
* Python strings are modelled as `List Char`; character indexing `w[i]`
  becomes `w[i]?` (the solver is only ever run with in-range overlap
  indices, where the two coincide).
* Python `set` domains are modelled as lists; `self.domains` becomes a
  total function `Variable → List Word` (the dictionary has exactly the
  crossword variables as keys; a lookup of a missing key, which raises
  `KeyError` in Python, is modelled by an `Option`-valued result where it
  matters for termination, namely in `ac3Loop`).
* Python dictionaries used as assignments become association lists
  `List (Variable × Word)`; `dict(assignment)` followed by an insertion
  becomes consing the new binding in front.
* `list.sort(key=...)` is a stable sort, modelled by `List.insertionSort`
  (also stable); `reverse=True` becomes sorting with the flipped relation.
-/

inductive Direction where
  | across
  | down
deriving DecidableEq

structure Variable where
  i : Nat
  j : Nat
  length : Nat
  direction : Direction
deriving DecidableEq

abbrev Word := List Char

/-- The problem-model collaborator: the fields of the `Crossword` object
that the solver reads (`variables`, `words`, `overlaps`, `neighbors`). -/
structure Crossword where
  vars : List Variable
  words : List Word
  overlaps : Variable → Variable → Option (Nat × Nat)
  neighbors : Variable → List Variable

/-- `enforce_node_consistency`: keep in each domain exactly the words whose
length equals the length of the variable. -/
def enforce_node_consistency (dom : Variable → List Word) :
    Variable → List Word :=
  fun v => (dom v).filter (fun w => w.length == v.length)

/-- `revise(x, y)`: if the overlap of `(x, y)` is `None`, no change and
result `False`; otherwise drop from the domain of `x` every word with no
agreeing partner in the domain of `y`, and report whether a word was
dropped. -/
def revise (cw : Crossword) (dom : Variable → List Word)
    (x y : Variable) : (Variable → List Word) × Bool :=
  match cw.overlaps x y with
  | none => (dom, false)
  | some (i, j) =>
    let newx := (dom x).filter (fun wx => (dom y).any (fun wy => wx[i]? == wy[j]?))
    (Function.update dom x newx, decide (newx ≠ dom x))

/-- Total size of all domains over the variable list; the termination
measure for the `ac3` worklist loop. -/
def totalSize (cw : Crossword) (dom : Variable → List Word) : Nat :=
  (cw.vars.map (fun v => (dom v).length)).sum

theorem revise_eq_none (cw : Crossword) (dom : Variable → List Word)
    (x y : Variable) (hov : cw.overlaps x y = none) :
    revise cw dom x y = (dom, false) := by
  unfold revise
  rw [hov]

theorem revise_eq_some (cw : Crossword) (dom : Variable → List Word)
    (x y : Variable) (i j : Nat) (hov : cw.overlaps x y = some (i, j)) :
    revise cw dom x y =
      (Function.update dom x
        ((dom x).filter (fun wx => (dom y).any (fun wy => wx[i]? == wy[j]?))),
       decide (((dom x).filter (fun wx => (dom y).any (fun wy => wx[i]? == wy[j]?)))
         ≠ dom x)) := by
  unfold revise
  rw [hov]

theorem revise_fst_sublist (cw : Crossword) (dom : Variable → List Word)
    (x y v : Variable) : List.Sublist ((revise cw dom x y).1 v) (dom v) := by
  cases hov : cw.overlaps x y with
  | none => rw [revise_eq_none cw dom x y hov]
  | some p =>
    obtain ⟨i, j⟩ := p
    rw [revise_eq_some cw dom x y i j hov]
    by_cases hv : v = x
    · subst hv
      simp only [Function.update_same]
      exact List.filter_sublist _
    · simp [Function.update_noteq hv]

theorem revise_snd_ne (cw : Crossword) (dom : Variable → List Word)
    (x y : Variable) (h : (revise cw dom x y).2 = true) :
    (revise cw dom x y).1 x ≠ dom x := by
  cases hov : cw.overlaps x y with
  | none => rw [revise_eq_none cw dom x y hov] at h; simp at h
  | some p =>
    obtain ⟨i, j⟩ := p
    rw [revise_eq_some cw dom x y i j hov] at h ⊢
    simp only [decide_eq_true_eq] at h
    simpa [Function.update_same] using h

theorem revise_length_lt (cw : Crossword) (dom : Variable → List Word)
    (x y : Variable) (h : (revise cw dom x y).2 = true) :
    ((revise cw dom x y).1 x).length < (dom x).length := by
  have hsub : List.Sublist ((revise cw dom x y).1 x) (dom x) := revise_fst_sublist cw dom x y x
  have hne : (revise cw dom x y).1 x ≠ dom x := revise_snd_ne cw dom x y h
  rcases Nat.lt_or_ge ((revise cw dom x y).1 x).length (dom x).length with hlt | hge
  · exact hlt
  · exact absurd (hsub.eq_of_length (Nat.le_antisymm hsub.length_le hge)) hne

theorem sum_map_le_of_pointwise (l : List Variable)
    (f g : Variable → Nat) (h : ∀ v ∈ l, f v ≤ g v) :
    (l.map f).sum ≤ (l.map g).sum := by
  induction l with
  | nil => simp
  | cons a t ih =>
    simp only [List.map_cons, List.sum_cons]
    exact Nat.add_le_add (h a (List.mem_cons_self a t))
      (ih (fun v hv => h v (List.mem_cons_of_mem a hv)))

theorem sum_map_lt_of_mem (l : List Variable) (f g : Variable → Nat)
    (x : Variable) (hx : x ∈ l) (hlt : f x < g x)
    (hle : ∀ v ∈ l, f v ≤ g v) :
    (l.map f).sum < (l.map g).sum := by
  induction l with
  | nil => simp at hx
  | cons a t ih =>
    simp only [List.map_cons, List.sum_cons]
    rcases List.mem_cons.mp hx with rfl | hmem
    · exact Nat.add_lt_add_of_lt_of_le hlt
        (sum_map_le_of_pointwise t f g (fun v hv => hle v (List.mem_cons_of_mem _ hv)))
    · exact Nat.add_lt_add_of_le_of_lt (hle a (List.mem_cons_self a t))
        (ih hmem (fun v hv => hle v (List.mem_cons_of_mem _ hv)))

theorem totalSize_revise_lt (cw : Crossword) (dom : Variable → List Word)
    (x y : Variable) (hx : x ∈ cw.vars)
    (h : (revise cw dom x y).2 = true) :
    totalSize cw (revise cw dom x y).1 < totalSize cw dom := by
  apply sum_map_lt_of_mem cw.vars _ _ x hx
  · exact revise_length_lt cw dom x y h
  · intro v _
    exact (revise_fst_sublist cw dom x y v).length_le

/-- `ac3`, worklist loop: pop an arc from the front, revise, stop with
failure on an emptied domain, otherwise re-enqueue the incoming arcs of the
revised variable at the back.  The returned triple is the final domains,
the final contents of the (mutated, caller-visible) arc list, and the
success flag.  A `KeyError` of the Python dictionary lookup
`self.domains[x]` — possible only when an arc mentions a non-variable — is
modelled as `none`. -/
def ac3Loop (c : Crossword) (dom : Variable → List Word)
    (queue : List (Variable × Variable)) :
    Option ((Variable → List Word) × List (Variable × Variable) × Bool) :=
  match queue with
  | [] => some (dom, [], true)
  | (x, y) :: rest =>
    match c.overlaps x y with
    | none => ac3Loop c dom rest
    | some _ =>
      if hx : x ∈ c.vars then
        if hr : (revise c dom x y).2 = true then
          if ((revise c dom x y).1 x).length == 0 then
            some ((revise c dom x y).1, rest, false)
          else
            ac3Loop c (revise c dom x y).1
              (rest ++ ((c.neighbors x).filter (fun z => z ≠ y)).map (fun z => (z, x)))
        else
          ac3Loop c dom rest
      else
        none
termination_by (totalSize c dom, queue.length)
decreasing_by
  all_goals first
    | exact Prod.Lex.left _ _ (totalSize_revise_lt c dom x y hx hr)
    | exact Prod.Lex.right _ (Nat.lt_succ_self _)

/-- The default initial worklist of `ac3(arcs=None)`: every arc
`(var, neighbour)`. -/
def initialArcs (cw : Crossword) : List (Variable × Variable) :=
  cw.vars.flatMap (fun v => (cw.neighbors v).map (fun n => (v, n)))

/-- `ac3`: run the worklist loop, starting from the supplied arc list or
from all arcs of the problem. -/
def ac3 (cw : Crossword) (dom : Variable → List Word)
    (arcs : Option (List (Variable × Variable))) :
    Option ((Variable → List Word) × List (Variable × Variable) × Bool) :=
  match arcs with
  | none => ac3Loop cw dom (initialArcs cw)
  | some l => ac3Loop cw dom l

/-- An assignment: the Python dictionary `Variable -> str` as an
association list; lookup finds the first binding. -/
abbrev Assignment := List (Variable × Word)

/-- `assignment_complete`: every crossword variable has an entry. -/
def assignment_complete (cw : Crossword) (a : Assignment) : Bool :=
  cw.vars.all (fun v => (a.lookup v).isSome)

/-- The overlap check of `consistent` for one assigned variable against
one neighbour, reading the full assignment. -/
def neighborsOK (cw : Crossword) (full : Assignment)
    (v : Variable) (w : Word) : Bool :=
  (cw.neighbors v).all (fun nb =>
    match full.lookup nb with
    | none => true
    | some wn =>
      match cw.overlaps v nb with
      | none => true
      | some (i, j) => w[i]? == wn[j]?)

/-- The loop of `consistent`: walk the items, carrying the set of words
seen so far, checking uniqueness, length, and the overlap constraints
against the full assignment. -/
def consistentGo (cw : Crossword) (full : Assignment) :
    Assignment → List Word → Bool
  | [], _ => true
  | (v, w) :: rest, assigned =>
    if w ∈ assigned then false
    else if !(w.length == v.length) then false
    else if neighborsOK cw full v w then consistentGo cw full rest (w :: assigned)
    else false

/-- `consistent(assignment)`: no repeated word, matching lengths, and all
overlap constraints between assigned neighbours hold. -/
def consistent (cw : Crossword) (a : Assignment) : Bool :=
  consistentGo cw a a []

/-- The heuristic value of `order_domain_values`: for each word, the sum
over unassigned neighbours of the number of neighbour words AGREEING at
the overlap (the code counts `word[i] == word_neighbour[j]`). -/
def agreementCount (cw : Crossword) (dom : Variable → List Word)
    (a : Assignment) (v : Variable) (w : Word) : Nat :=
  ((cw.neighbors v).map (fun nb =>
    if (a.lookup nb).isSome then 0
    else
      match cw.overlaps v nb with
      | none => 0
      | some (i, j) => (dom nb).countP (fun wn => w[i]? == wn[j]?))).sum

/-- `order_domain_values`: tag each word of the domain with its heuristic,
stable-sort by descending heuristic (`reverse=True`), strip the tags. -/
def order_domain_values (cw : Crossword) (dom : Variable → List Word)
    (v : Variable) (a : Assignment) : List Word :=
  (((dom v).map (fun w => (w, agreementCount cw dom a v w))).insertionSort
    (fun p q => q.2 ≤ p.2)).map Prod.fst

/-- `select_unassigned_variable`: among the unassigned variables take the
bucket of minimal domain size; if it is a singleton return its element,
otherwise stable-sort by ascending neighbour count and return the first.
The Python code raises `ValueError` on `min` of an empty mapping (all
variables assigned), modelled as `none`. -/
def unassignedVars (cw : Crossword) (a : Assignment) : List Variable :=
  cw.vars.filter (fun v => (a.lookup v).isNone)

/-- The bucket of unassigned variables of minimal domain size
(`domain_size_var_map[min_domain_size]`). -/
def mrvBucket (cw : Crossword) (dom : Variable → List Word)
    (a : Assignment) (m : Nat) : List Variable :=
  (unassignedVars cw a).filter (fun v => (dom v).length == m)

def select_unassigned_variable (cw : Crossword) (dom : Variable → List Word)
    (a : Assignment) : Option Variable :=
  match ((unassignedVars cw a).map (fun v => (dom v).length)).min? with
  | none => none
  | some m =>
    if (mrvBucket cw dom a m).length == 1 then (mrvBucket cw dom a m).head?
    else
      ((((mrvBucket cw dom a m).map (fun v => (v, (cw.neighbors v).length))).insertionSort
        (fun p q => p.2 ≤ q.2)).head?).map Prod.fst

/-- Number of crossword variables without an entry; the termination
measure of the backtracking search. -/
def unassignedCount (cw : Crossword) (a : Assignment) : Nat :=
  (unassignedVars cw a).length

theorem mem_of_mem_mrvBucket (cw : Crossword) (dom : Variable → List Word)
    (a : Assignment) (m : Nat) (v : Variable)
    (h : v ∈ mrvBucket cw dom a m) : v ∈ cw.vars ∧ a.lookup v = none := by
  have h1 : v ∈ unassignedVars cw a := List.mem_of_mem_filter h
  refine ⟨List.mem_of_mem_filter h1, ?_⟩
  have := List.of_mem_filter h1
  simpa [Option.isNone_iff_eq_none] using this

theorem select_mem_unassigned (cw : Crossword) (dom : Variable → List Word)
    (a : Assignment) (v : Variable)
    (h : select_unassigned_variable cw dom a = some v) :
    v ∈ cw.vars ∧ a.lookup v = none := by
  unfold select_unassigned_variable at h
  cases hm : ((unassignedVars cw a).map (fun v => (dom v).length)).min? with
  | none => rw [hm] at h; simp at h
  | some m =>
    rw [hm] at h
    simp only at h
    apply mem_of_mem_mrvBucket cw dom a m
    by_cases hlen : (mrvBucket cw dom a m).length == 1
    · rw [if_pos hlen] at h
      exact List.mem_of_mem_head? h
    · rw [if_neg hlen] at h
      rcases Option.map_eq_some'.mp h with ⟨p, hp, hfst⟩
      have hpmem := List.mem_of_mem_head? hp
      have hperm := List.perm_insertionSort
        (fun p q : Variable × Nat => p.2 ≤ q.2)
        ((mrvBucket cw dom a m).map (fun v => (v, (cw.neighbors v).length)))
      have hmem2 := hperm.mem_iff.mp hpmem
      rcases List.mem_map.mp hmem2 with ⟨u, hu, hpu⟩
      subst hfst
      rw [← hpu]
      exact hu

theorem length_filter_mono {α : Type} (l : List α) (p p' : α → Bool)
    (himp : ∀ u, p' u = true → p u = true) :
    (l.filter p').length ≤ (l.filter p).length := by
  induction l with
  | nil => simp
  | cons a t ih =>
    by_cases hp' : p' a = true
    · rw [List.filter_cons_of_pos hp', List.filter_cons_of_pos (himp a hp')]
      simpa using ih
    · rw [List.filter_cons_of_neg (by simpa using hp')]
      by_cases hp : p a = true
      · rw [List.filter_cons_of_pos hp]
        exact Nat.le_succ_of_le ih
      · rw [List.filter_cons_of_neg (by simpa using hp)]
        exact ih

theorem length_filter_lt {α : Type} (l : List α) (p p' : α → Bool)
    (v : α) (hv : v ∈ l) (hpv : p v = true) (hp'v : p' v = false)
    (himp : ∀ u, p' u = true → p u = true) :
    (l.filter p').length < (l.filter p).length := by
  induction l with
  | nil => simp at hv
  | cons a t ih =>
    rcases List.mem_cons.mp hv with rfl | hmem
    · rw [List.filter_cons_of_pos hpv, List.filter_cons_of_neg (by simp [hp'v])]
      exact Nat.lt_succ_of_le (length_filter_mono t p p' himp)
    · by_cases hp' : p' a = true
      · rw [List.filter_cons_of_pos hp', List.filter_cons_of_pos (himp a hp')]
        simpa using ih hmem
      · rw [List.filter_cons_of_neg (by simpa using hp')]
        by_cases hp : p a = true
        · rw [List.filter_cons_of_pos hp]
          exact Nat.lt_succ_of_lt (ih hmem)
        · rw [List.filter_cons_of_neg (by simpa using hp)]
          exact ih hmem

theorem lookup_cons_self {β : Type} (v : Variable) (w : β)
    (a : List (Variable × β)) : ((v, w) :: a).lookup v = some w := by
  simp [List.lookup]

theorem lookup_cons_ne {β : Type} (u v : Variable) (w : β)
    (a : List (Variable × β)) (h : u ≠ v) :
    ((v, w) :: a).lookup u = a.lookup u := by
  simp [List.lookup, beq_false_of_ne h]

theorem unassignedCount_cons_lt (cw : Crossword) (a : Assignment)
    (v : Variable) (w : Word) (hv : v ∈ cw.vars) (hnone : a.lookup v = none) :
    unassignedCount cw ((v, w) :: a) < unassignedCount cw a := by
  unfold unassignedCount unassignedVars
  apply length_filter_lt cw.vars _ _ v hv
  · simp [hnone]
  · rw [lookup_cons_self]
    simp
  · intro u hu
    by_cases huv : u = v
    · subst huv
      rw [lookup_cons_self] at hu
      simp at hu
    · rwa [lookup_cons_ne u v w a huv] at hu

theorem select_isSome (cw : Crossword) (dom : Variable → List Word)
    (a : Assignment) (h : assignment_complete cw a = false) :
    (select_unassigned_variable cw dom a).isSome := by
  have hex : ∃ v, v ∈ cw.vars ∧ (a.lookup v).isNone := by
    unfold assignment_complete at h
    rcases List.all_eq_false.mp h with ⟨v, hv, hns⟩
    refine ⟨v, hv, ?_⟩
    cases hl : List.lookup v a with
    | none => simp
    | some w => rw [hl] at hns; simp at hns
  rcases hex with ⟨v, hv, hvn⟩
  have hvu : v ∈ unassignedVars cw a := List.mem_filter.mpr ⟨hv, hvn⟩
  unfold select_unassigned_variable
  cases hm : ((unassignedVars cw a).map (fun v => (dom v).length)).min? with
  | none =>
    rw [List.min?_eq_none_iff] at hm
    rw [List.map_eq_nil_iff] at hm
    rw [hm] at hvu
    simp at hvu
  | some m =>
    simp only
    have hmmem : m ∈ (unassignedVars cw a).map (fun v => (dom v).length) :=
      List.min?_mem (by
        intro x y
        rcases Nat.le_total x y with hxy | hxy
        · exact Or.inl (Nat.min_eq_left hxy)
        · exact Or.inr (Nat.min_eq_right hxy)) hm
    rcases List.mem_map.mp hmmem with ⟨u, hu, hum⟩
    have hub : u ∈ mrvBucket cw dom a m :=
      List.mem_filter.mpr ⟨hu, by simp [hum]⟩
    have hbne : mrvBucket cw dom a m ≠ [] := List.ne_nil_of_mem hub
    by_cases hlen : (mrvBucket cw dom a m).length == 1
    · rw [if_pos hlen]
      cases hb : mrvBucket cw dom a m with
      | nil => exact absurd hb hbne
      | cons b bs => simp
    · rw [if_neg hlen]
      have hperm := List.perm_insertionSort
        (fun p q : Variable × Nat => p.2 ≤ q.2)
        ((mrvBucket cw dom a m).map (fun v => (v, (cw.neighbors v).length)))
      have hne2 : (((mrvBucket cw dom a m).map
          (fun v => (v, (cw.neighbors v).length))).insertionSort
          (fun p q => p.2 ≤ q.2)) ≠ [] := by
        intro hnil
        have hmm : (u, (cw.neighbors u).length) ∈
            (mrvBucket cw dom a m).map (fun v => (v, (cw.neighbors v).length)) :=
          List.mem_map.mpr ⟨u, hub, rfl⟩
        have hmm2 := hperm.symm.mem_iff.mp hmm
        rw [hnil] at hmm2
        simp at hmm2
      cases hb : (((mrvBucket cw dom a m).map
          (fun v => (v, (cw.neighbors v).length))).insertionSort
          (fun p q => p.2 ≤ q.2)) with
      | nil => exact absurd hb hne2
      | cons b bs => simp

mutual

/-- `backtrack(assignment)`: return a complete assignment as-is; otherwise
pick the next variable and try each word of its domain in turn.  The
`None` of an exhausted level is `none`; the dead branch in which every
variable is assigned yet `select` has nothing to pick cannot be reached
and is also `none`. -/
def backtrack (cw : Crossword) (dom : Variable → List Word)
    (a : Assignment) : Option Assignment :=
  if assignment_complete cw a then some a
  else
    match hsel : select_unassigned_variable cw dom a with
    | none => none
    | some v => tryWords cw dom a v (select_mem_unassigned cw dom a v hsel) (dom v)
termination_by (2 * unassignedCount cw a + 1, 0)
decreasing_by
  exact Prod.Lex.left _ _ (Nat.lt_succ_self _)

/-- The `for word in self.domains[variable]` loop of `backtrack`: extend a
copy of the assignment with the binding, skip it unless `consistent`,
recurse, and propagate the first non-`None` result. -/
def tryWords (cw : Crossword) (dom : Variable → List Word) (a : Assignment)
    (v : Variable) (hv : v ∈ cw.vars ∧ a.lookup v = none) :
    List Word → Option Assignment
  | [] => none
  | w :: ws =>
    if consistent cw ((v, w) :: a) then
      match backtrack cw dom ((v, w) :: a) with
      | some r => some r
      | none => tryWords cw dom a v hv ws
    else tryWords cw dom a v hv ws
termination_by ws => (2 * unassignedCount cw a, ws.length)
decreasing_by
  · apply Prod.Lex.left
    have := unassignedCount_cons_lt cw a v w hv.1 hv.2
    omega
  · exact Prod.Lex.right _ (Nat.lt_succ_self _)
  · exact Prod.Lex.right _ (Nat.lt_succ_self _)

end

theorem revise_mem_iff (cw : Crossword) (dom : Variable → List Word)
    (x y : Variable) (i j : Nat) (hov : cw.overlaps x y = some (i, j))
    (w : Word) :
    w ∈ (revise cw dom x y).1 x ↔
      w ∈ dom x ∧ ∃ wy ∈ dom y, w[i]? = wy[j]? := by
  rw [revise_eq_some cw dom x y i j hov]
  simp only [Function.update_same, List.mem_filter, List.any_eq_true, beq_iff_eq]

theorem revise_other_eq (cw : Crossword) (dom : Variable → List Word)
    (x y v : Variable) (hv : v ≠ x) : (revise cw dom x y).1 v = dom v := by
  cases hov : cw.overlaps x y with
  | none => rw [revise_eq_none cw dom x y hov]
  | some p =>
    obtain ⟨i, j⟩ := p
    rw [revise_eq_some cw dom x y i j hov]
    exact Function.update_noteq hv _ _

theorem revise_flag_iff (cw : Crossword) (dom : Variable → List Word)
    (x y : Variable) (i j : Nat) (hov : cw.overlaps x y = some (i, j)) :
    ((revise cw dom x y).2 = true ↔ (revise cw dom x y).1 x ≠ dom x) := by
  constructor
  · exact revise_snd_ne cw dom x y
  · intro hne
    rw [revise_eq_some cw dom x y i j hov] at hne ⊢
    simp only [Function.update_same] at hne
    simpa using hne

theorem ac3Loop_sublist (cw : Crossword) (dom : Variable → List Word)
    (queue : List (Variable × Variable)) :
    ∀ dom' q' b, ac3Loop cw dom queue = some (dom', q', b) →
      (∀ v, List.Sublist (dom' v) (dom v)) ∧ (b = false → ∃ v, dom' v = []) := by
  induction dom, queue using ac3Loop.induct (c := cw) with
  | case1 dom =>
    intro dom' q' b h
    rw [ac3Loop.eq_def] at h
    simp only [Option.some.injEq, Prod.mk.injEq] at h
    obtain ⟨rfl, -, rfl⟩ := h
    exact ⟨fun v => List.Sublist.refl _, by simp⟩
  | case2 dom x y rest hov ih =>
    intro dom' q' b h
    rw [ac3Loop.eq_def] at h
    simp only [hov] at h
    exact ih dom' q' b h
  | case3 dom x y rest p hov hx hr hlen =>
    intro dom' q' b h
    rw [ac3Loop.eq_def] at h
    simp only [hov, dif_pos hx, dif_pos hr, if_pos hlen, Option.some.injEq,
      Prod.mk.injEq] at h
    obtain ⟨rfl, -, rfl⟩ := h
    refine ⟨fun v => revise_fst_sublist cw dom x y v, fun _ => ⟨x, ?_⟩⟩
    have : ((revise cw dom x y).1 x).length = 0 := by simpa using hlen
    exact List.length_eq_zero.mp this
  | case4 dom x y rest p hov hx hr hlen ih =>
    intro dom' q' b h
    rw [ac3Loop.eq_def] at h
    simp only [hov, dif_pos hx, dif_pos hr, if_neg hlen] at h
    rcases ih dom' q' b h with ⟨hsub, hempty⟩
    exact ⟨fun v => (hsub v).trans (revise_fst_sublist cw dom x y v), hempty⟩
  | case5 dom x y rest p hov hx hr ih =>
    intro dom' q' b h
    rw [ac3Loop.eq_def] at h
    simp only [hov, dif_pos hx, dif_neg hr] at h
    exact ih dom' q' b h
  | case6 dom x y rest p hov hx =>
    intro dom' q' b h
    rw [ac3Loop.eq_def] at h
    simp only [hov, dif_neg hx] at h
    exact absurd h (by simp)

theorem ac3Loop_success_queue (cw : Crossword) (dom : Variable → List Word)
    (queue : List (Variable × Variable)) :
    ∀ dom' q' b, ac3Loop cw dom queue = some (dom', q', b) → b = true →
      q' = [] := by
  induction dom, queue using ac3Loop.induct (c := cw) with
  | case1 dom =>
    intro dom' q' b h hb
    rw [ac3Loop.eq_def] at h
    simp only [Option.some.injEq, Prod.mk.injEq] at h
    obtain ⟨-, hq, -⟩ := h
    exact hq.symm
  | case2 dom x y rest hov ih =>
    intro dom' q' b h hb
    rw [ac3Loop.eq_def] at h
    simp only [hov] at h
    exact ih dom' q' b h hb
  | case3 dom x y rest p hov hx hr hlen =>
    intro dom' q' b h hb
    rw [ac3Loop.eq_def] at h
    simp only [hov, dif_pos hx, dif_pos hr, if_pos hlen, Option.some.injEq,
      Prod.mk.injEq] at h
    obtain ⟨-, -, hb'⟩ := h
    rw [← hb'] at hb
    simp at hb
  | case4 dom x y rest p hov hx hr hlen ih =>
    intro dom' q' b h hb
    rw [ac3Loop.eq_def] at h
    simp only [hov, dif_pos hx, dif_pos hr, if_neg hlen] at h
    exact ih dom' q' b h hb
  | case5 dom x y rest p hov hx hr ih =>
    intro dom' q' b h hb
    rw [ac3Loop.eq_def] at h
    simp only [hov, dif_pos hx, dif_neg hr] at h
    exact ih dom' q' b h hb
  | case6 dom x y rest p hov hx =>
    intro dom' q' b h hb
    rw [ac3Loop.eq_def] at h
    simp only [hov, dif_neg hx] at h
    exact absurd h (by simp)

/-- Arc consistency of `x` with respect to `y` under given domains: when
the overlap is defined, every word of `x` has an agreeing partner in `y`. -/
def arcOK (cw : Crossword) (dom : Variable → List Word)
    (x y : Variable) : Prop :=
  ∀ i j, cw.overlaps x y = some (i, j) →
    ∀ wx ∈ dom x, ∃ wy ∈ dom y, wx[i]? = wy[j]?

/-- Structural well-formedness of the `Crossword` collaborator, restricted
to its variable list: neighbours are variables, the overlap map is
symmetric (the pair of indices swaps), no variable overlaps itself, and
neighbourhood is symmetric.  These all hold for objects built by the
`Crossword` class. -/
def CWok (cw : Crossword) : Prop :=
  (∀ v ∈ cw.vars, ∀ z ∈ cw.neighbors v, z ∈ cw.vars) ∧
  (∀ x ∈ cw.vars, ∀ y ∈ cw.vars,
    cw.overlaps y x = (cw.overlaps x y).map (fun p => (p.2, p.1))) ∧
  (∀ v ∈ cw.vars, cw.overlaps v v = none) ∧
  (∀ x ∈ cw.vars, ∀ y ∈ cw.vars, y ∈ cw.neighbors x → x ∈ cw.neighbors y)

theorem ac3Loop_arc_consistent (cw : Crossword) (hcw : CWok cw)
    (dom : Variable → List Word) (queue : List (Variable × Variable)) :
    ∀ dom' q', (∀ p ∈ queue, p.1 ∈ cw.vars ∧ p.2 ∈ cw.vars) →
      (∀ a ∈ cw.vars, ∀ b ∈ cw.neighbors a, (a, b) ∈ queue ∨ arcOK cw dom a b) →
      ac3Loop cw dom queue = some (dom', q', true) →
      ∀ a ∈ cw.vars, ∀ b ∈ cw.neighbors a, arcOK cw dom' a b := by
  obtain ⟨hnbv, hsymm, hirr, hnbs⟩ := hcw
  induction dom, queue using ac3Loop.induct (c := cw) with
  | case1 dom =>
    intro dom' q' hq hinv h
    rw [ac3Loop.eq_def] at h
    simp only [Option.some.injEq, Prod.mk.injEq] at h
    obtain ⟨rfl, -, -⟩ := h
    intro a ha b hb
    rcases hinv a ha b hb with hmem | hok
    · simp at hmem
    · exact hok
  | case2 dom x y rest hov ih =>
    intro dom' q' hq hinv h
    rw [ac3Loop.eq_def] at h
    simp only [hov] at h
    refine ih dom' q' (fun p hp => hq p (List.mem_cons_of_mem _ hp)) ?_ h
    intro a ha b hb
    rcases hinv a ha b hb with hmem | hok
    · rcases List.mem_cons.mp hmem with heq | hmem2
      · right
        rw [Prod.mk.injEq] at heq
        intro i j hov2
        rw [heq.1, heq.2, hov] at hov2
        exact absurd hov2 (by simp)
      · exact Or.inl hmem2
    · exact Or.inr hok
  | case3 dom x y rest p hov hx hr hlen =>
    intro dom' q' hq hinv h
    rw [ac3Loop.eq_def] at h
    simp only [hov, dif_pos hx, dif_pos hr, if_pos hlen, Option.some.injEq,
      Prod.mk.injEq] at h
    obtain ⟨-, -, hb⟩ := h
    exact absurd hb (by simp)
  | case4 dom x y rest p hov hx hr hlen ih =>
    intro dom' q' hq hinv h
    rw [ac3Loop.eq_def] at h
    simp only [hov, dif_pos hx, dif_pos hr, if_neg hlen] at h
    obtain ⟨i, j⟩ := p
    have hyv : y ∈ cw.vars := (hq (x, y) (List.mem_cons_self _ _)).2
    have hxy : y ≠ x := by
      intro heq
      rw [heq, hirr x hx] at hov
      exact absurd hov (by simp)
    refine ih dom' q' ?_ ?_ h
    · intro pq hpq
      rcases List.mem_append.mp hpq with hrest | hnew
      · exact hq pq (List.mem_cons_of_mem _ hrest)
      · rcases List.mem_map.mp hnew with ⟨z, hz, rfl⟩
        have hz2 := List.mem_of_mem_filter hz
        exact ⟨hnbv x hx z hz2, hx⟩
    · intro a ha b hb
      rcases hinv a ha b hb with hmem | hok
      · rcases List.mem_cons.mp hmem with heq | hmem2
        · right
          rw [Prod.mk.injEq] at heq
          rw [heq.1, heq.2]
          intro i' j' hov'
          rw [hov] at hov'
          simp only [Option.some.injEq, Prod.mk.injEq] at hov'
          obtain ⟨rfl, rfl⟩ := hov'
          intro wx hwx
          rcases (revise_mem_iff cw dom x y i j hov wx).mp hwx with
            ⟨-, wy, hwy, hagree⟩
          refine ⟨wy, ?_, hagree⟩
          rw [revise_other_eq cw dom x y y hxy]
          exact hwy
        · exact Or.inl (List.mem_append_left _ hmem2)
      · by_cases hbx : b = x
        · by_cases hay : a = y
          · right
            rw [hbx, hay]
            rw [hbx, hay] at hok
            intro i' j' hov'
            have hs := hsymm x hx y hyv
            rw [hov] at hs
            simp only [Option.map_some'] at hs
            rw [hs] at hov'
            simp only [Option.some.injEq, Prod.mk.injEq] at hov'
            obtain ⟨rfl, rfl⟩ := hov'
            intro wa hwa
            rw [revise_other_eq cw dom x y y hxy] at hwa
            rcases hok j i hs wa hwa with ⟨wx, hwx, hagree⟩
            refine ⟨wx, ?_, hagree⟩
            rw [revise_mem_iff cw dom x y i j hov]
            exact ⟨hwx, wa, hwa, hagree.symm⟩
          · left
            apply List.mem_append_right
            apply List.mem_map.mpr
            refine ⟨a, ?_, by rw [hbx]⟩
            apply List.mem_filter.mpr
            refine ⟨hnbs a ha x hx (hbx ▸ hb), by simpa using hay⟩
        · right
          intro i' j' hov'
          intro wa hwa
          have hwa2 : wa ∈ dom a :=
            (revise_fst_sublist cw dom x y a).subset hwa
          rcases hok i' j' hov' wa hwa2 with ⟨wb, hwb, hagree⟩
          refine ⟨wb, ?_, hagree⟩
          rw [revise_other_eq cw dom x y b hbx]
          exact hwb
  | case5 dom x y rest p hov hx hr ih =>
    intro dom' q' hq hinv h
    rw [ac3Loop.eq_def] at h
    simp only [hov, dif_pos hx, dif_neg hr] at h
    obtain ⟨i, j⟩ := p
    have hfix : (revise cw dom x y).1 x = dom x := by
      by_contra hne
      exact hr ((revise_flag_iff cw dom x y i j hov).mpr hne)
    refine ih dom' q' (fun pq hpq => hq pq (List.mem_cons_of_mem _ hpq)) ?_ h
    intro a ha b hb
    rcases hinv a ha b hb with hmem | hok
    · rcases List.mem_cons.mp hmem with heq | hmem2
      · right
        rw [Prod.mk.injEq] at heq
        rw [heq.1, heq.2]
        intro i' j' hov'
        rw [hov] at hov'
        simp only [Option.some.injEq, Prod.mk.injEq] at hov'
        obtain ⟨rfl, rfl⟩ := hov'
        intro wx hwx
        rw [← hfix] at hwx
        rcases (revise_mem_iff cw dom x y i j hov wx).mp hwx with
          ⟨-, wy, hwy, hagree⟩
        exact ⟨wy, hwy, hagree⟩
      · exact Or.inl hmem2
    · exact Or.inr hok
  | case6 dom x y rest p hov hx =>
    intro dom' q' hq hinv h
    rw [ac3Loop.eq_def] at h
    simp only [hov, dif_neg hx] at h
    exact absurd h (by simp)

theorem lookup_some_mem {β : Type} (a : List (Variable × β)) (k : Variable)
    (v : β) (h : a.lookup k = some v) : (k, v) ∈ a := by
  induction a with
  | nil => simp [List.lookup] at h
  | cons p rest ih =>
    obtain ⟨k', v'⟩ := p
    by_cases hk : k = k'
    · rw [hk, lookup_cons_self] at h
      injection h with h
      rw [hk, h]
      exact List.mem_cons_self _ _
    · rw [lookup_cons_ne k k' v' rest hk] at h
      exact List.mem_cons_of_mem _ (ih h)

theorem consistentGo_nodup (cw : Crossword) (full : Assignment) :
    ∀ (l : Assignment) (acc : List Word), consistentGo cw full l acc = true →
      (l.map Prod.snd).Nodup ∧ ∀ w ∈ l.map Prod.snd, w ∉ acc := by
  intro l
  induction l with
  | nil => intro acc _; simp
  | cons p rest ih =>
    obtain ⟨v, w⟩ := p
    intro acc h
    rw [consistentGo] at h
    split at h
    · exact absurd h (by simp)
    · split at h
      · exact absurd h (by simp)
      · split at h
        · rcases ih (w :: acc) h with ⟨hnd, hnin⟩
          have hwr : w ∉ rest.map Prod.snd := by
            intro hmem
            exact (hnin w hmem) (List.mem_cons_self _ _)
          refine ⟨?_, ?_⟩
          · rw [List.map_cons]
            exact List.nodup_cons.mpr ⟨hwr, hnd⟩
          intro w' hw'
          rcases List.mem_cons.mp hw' with rfl | hw2
          · rename_i hacc _ _
            simpa using hacc
          · intro hacc2
            exact (hnin w' hw2) (List.mem_cons_of_mem _ hacc2)
        · exact absurd h (by simp)

theorem consistentGo_forward (cw : Crossword) (full : Assignment) :
    ∀ (l : Assignment) (acc : List Word), consistentGo cw full l acc = true →
      ∀ p ∈ l, p.2.length = p.1.length ∧ neighborsOK cw full p.1 p.2 = true := by
  intro l
  induction l with
  | nil => intro acc _; simp
  | cons q rest ih =>
    obtain ⟨v, w⟩ := q
    intro acc h
    rw [consistentGo] at h
    split at h
    · exact absurd h (by simp)
    · split at h
      · exact absurd h (by simp)
      · rename_i hlen2
        split at h
        · rename_i hnb
          intro p hp
          rcases List.mem_cons.mp hp with rfl | hp2
          · exact ⟨by simpa using hlen2, hnb⟩
          · exact ih (w :: acc) h p hp2
        · exact absurd h (by simp)

theorem consistentGo_of (cw : Crossword) (full : Assignment) :
    ∀ (l : Assignment) (acc : List Word),
      (l.map Prod.snd).Nodup → (∀ w ∈ l.map Prod.snd, w ∉ acc) →
      (∀ p ∈ l, p.2.length = p.1.length ∧ neighborsOK cw full p.1 p.2 = true) →
      consistentGo cw full l acc = true := by
  intro l
  induction l with
  | nil => intro acc _ _ _; rw [consistentGo]
  | cons q rest ih =>
    obtain ⟨v, w⟩ := q
    intro acc hnd hnin hall
    rw [consistentGo]
    rw [if_neg (hnin w (by simp))]
    rcases hall (v, w) (List.mem_cons_self _ _) with ⟨hlen, hnb⟩
    have hlen2 : (w.length == v.length) = true := by simpa using hlen
    rw [hlen2]
    simp only [Bool.not_true, Bool.false_eq_true, if_false]
    rw [if_pos hnb]
    apply ih (w :: acc)
    · exact (List.nodup_cons.mp (by simpa using hnd)).2
    · intro w' hw'
      intro hacc
      rcases List.mem_cons.mp hacc with rfl | hacc2
      · exact (List.nodup_cons.mp (by simpa using hnd)).1 hw'
      · exact (hnin w' (List.mem_cons_of_mem _ hw')) hacc2
    · intro p hp
      exact hall p (List.mem_cons_of_mem _ hp)

theorem neighborsOK_restrict (cw : Crossword) (S a : Assignment)
    (u : Variable) (w : Word)
    (hsub : ∀ q ∈ a, S.lookup q.1 = some q.2)
    (h : neighborsOK cw S u w = true) : neighborsOK cw a u w = true := by
  unfold neighborsOK at *
  rw [List.all_eq_true] at h ⊢
  intro nb hnb
  have hS := h nb hnb
  simp only at hS ⊢
  cases hl : a.lookup nb with
  | none => simp
  | some wn =>
    have hmem := lookup_some_mem a nb wn hl
    have hSl := hsub (nb, wn) hmem
    simp only at hSl
    rw [hSl] at hS
    exact hS

theorem consistent_restrict (cw : Crossword) (S a : Assignment)
    (hS : consistent cw S = true)
    (hsub : ∀ q ∈ a, S.lookup q.1 = some q.2)
    (hkeys : (a.map Prod.fst).Nodup) : consistent cw a = true := by
  have hSnodup := (consistentGo_nodup cw S S [] hS).1
  have hSfacts := consistentGo_forward cw S S [] hS
  unfold consistent
  apply consistentGo_of
  · have hpk : a.Pairwise (fun p q => p.1 ≠ q.1) := List.pairwise_map.mp hkeys
    have hSpair : S.Pairwise (fun p q => p.2 ≠ q.2) := List.pairwise_map.mp hSnodup
    apply List.pairwise_map.mpr
    refine List.Pairwise.imp_of_mem ?_ hpk
    intro p q hp hq hne heq
    have hp' := lookup_some_mem S p.1 p.2 (hsub p hp)
    have hq' := lookup_some_mem S q.1 q.2 (hsub q hq)
    have hne2 : (p.1, p.2) ≠ (q.1, q.2) := by
      intro hE
      exact hne (congrArg Prod.fst hE)
    have hsymmR : Symmetric (fun p q : Variable × Word => p.2 ≠ q.2) :=
      fun _ _ hne3 => hne3.symm
    exact (hSpair.forall hsymmR hp' hq' hne2) heq
  · simp
  · intro p hp
    have hmemS := lookup_some_mem S p.1 p.2 (hsub p hp)
    have hfacts := hSfacts (p.1, p.2) hmemS
    exact ⟨hfacts.1, neighborsOK_restrict cw S a p.1 p.2 hsub hfacts.2⟩

theorem unassignedCount_zero_complete (cw : Crossword) (a : Assignment)
    (h : unassignedCount cw a = 0) : assignment_complete cw a = true := by
  unfold unassignedCount unassignedVars at h
  rw [List.length_eq_zero] at h
  unfold assignment_complete
  rw [List.all_eq_true]
  intro v hv
  by_cases hn : (a.lookup v).isNone
  · have : v ∈ cw.vars.filter (fun v => (a.lookup v).isNone) :=
      List.mem_filter.mpr ⟨hv, by simpa using hn⟩
    rw [h] at this
    simp at this
  · simpa [Option.isSome_iff_ne_none] using
      (by simpa [Option.isNone_iff_eq_none] using hn : a.lookup v ≠ none)

theorem backtrack_sound_aux (n : Nat) :
    ∀ (cw : Crossword) (dom : Variable → List Word) (a : Assignment)
      (r : Assignment), unassignedCount cw a ≤ n → consistent cw a = true →
      backtrack cw dom a = some r →
      assignment_complete cw r = true ∧ consistent cw r = true := by
  induction n with
  | zero =>
    intro cw dom a r hcnt hcons h
    have hcomp := unassignedCount_zero_complete cw a (Nat.le_zero.mp hcnt)
    rw [backtrack, if_pos hcomp] at h
    injection h with h
    rw [← h]
    exact ⟨hcomp, hcons⟩
  | succ n ihn =>
    intro cw dom a r hcnt hcons h
    rw [backtrack] at h
    by_cases hcomp : assignment_complete cw a = true
    · rw [if_pos hcomp] at h
      injection h with h
      rw [← h]
      exact ⟨hcomp, hcons⟩
    · rw [if_neg hcomp] at h
      split at h
      · exact absurd h (by simp)
      · rename_i v hsel
        obtain ⟨hv1, hv2⟩ := select_mem_unassigned cw dom a v hsel
        have key : ∀ (ws : List Word) (hvp : v ∈ cw.vars ∧ a.lookup v = none),
            tryWords cw dom a v hvp ws = some r →
            assignment_complete cw r = true ∧ consistent cw r = true := by
          intro ws
          induction ws with
          | nil =>
            intro hvp h2
            rw [tryWords] at h2
            exact absurd h2 (by simp)
          | cons w ws ihw =>
            intro hvp h2
            rw [tryWords] at h2
            split at h2
            · split at h2
              · rename_i r2 hbt
                injection h2 with h2
                rw [← h2]
                refine ihn cw dom ((v, w) :: a) r2 ?_ (by assumption) hbt
                have := unassignedCount_cons_lt cw a v w hv1 hv2
                omega
              · exact ihw hvp h2
            · exact ihw hvp h2
        exact key (dom v) _ h

theorem lookup_isSome_of_mem {β : Type} (a : List (Variable × β))
    (k : Variable) (b : β) (h : (k, b) ∈ a) : (a.lookup k).isSome := by
  induction a with
  | nil => simp at h
  | cons p rest ih =>
    obtain ⟨k', b'⟩ := p
    by_cases hk : k = k'
    · rw [hk, lookup_cons_self]
      simp
    · rw [lookup_cons_ne k k' b' rest hk]
      rcases List.mem_cons.mp h with heq | hmem
      · exact absurd (congrArg Prod.fst heq) hk
      · exact ih hmem

theorem not_mem_keys_of_lookup_none {β : Type} (a : List (Variable × β))
    (k : Variable) (h : a.lookup k = none) : k ∉ a.map Prod.fst := by
  intro hmem
  rcases List.mem_map.mp hmem with ⟨p, hp, hfst⟩
  have hkp : (k, p.2) ∈ a := by rw [← hfst]; exact hp
  have := lookup_isSome_of_mem a k p.2 hkp
  rw [h] at this
  simp at this

theorem backtrack_complete_aux (n : Nat) :
    ∀ (cw : Crossword) (dom : Variable → List Word) (a S : Assignment),
      unassignedCount cw a ≤ n →
      assignment_complete cw S = true → consistent cw S = true →
      (∀ p ∈ S, p.2 ∈ dom p.1) →
      (∀ q ∈ a, S.lookup q.1 = some q.2) →
      (a.map Prod.fst).Nodup →
      ∃ r, backtrack cw dom a = some r := by
  induction n with
  | zero =>
    intro cw dom a S hcnt hScomp hScons hdom hsub hkeys
    have hcomp := unassignedCount_zero_complete cw a (Nat.le_zero.mp hcnt)
    exact ⟨a, by rw [backtrack, if_pos hcomp]⟩
  | succ n ihn =>
    intro cw dom a S hcnt hScomp hScons hdom hsub hkeys
    by_cases hcomp : assignment_complete cw a = true
    · exact ⟨a, by rw [backtrack, if_pos hcomp]⟩
    · have hsome := select_isSome cw dom a (Bool.eq_false_iff.mpr hcomp)
      rw [Option.isSome_iff_exists] at hsome
      obtain ⟨v, hsel⟩ := hsome
      obtain ⟨hv1, hv2⟩ := select_mem_unassigned cw dom a v hsel
      have hlookS : (S.lookup v).isSome := by
        unfold assignment_complete at hScomp
        rw [List.all_eq_true] at hScomp
        simpa using hScomp v hv1
      rw [Option.isSome_iff_exists] at hlookS
      obtain ⟨wstar, hws⟩ := hlookS
      have hwdom : wstar ∈ dom v := hdom (v, wstar) (lookup_some_mem S v wstar hws)
      have hsub' : ∀ q ∈ (v, wstar) :: a, S.lookup q.1 = some q.2 := by
        intro q hq
        rcases List.mem_cons.mp hq with rfl | hq2
        · exact hws
        · exact hsub q hq2
      have hkeys' : (((v, wstar) :: a).map Prod.fst).Nodup := by
        rw [List.map_cons]
        exact List.nodup_cons.mpr ⟨not_mem_keys_of_lookup_none a v hv2, hkeys⟩
      have hccons : consistent cw ((v, wstar) :: a) = true :=
        consistent_restrict cw S ((v, wstar) :: a) hScons hsub' hkeys'
      have hcnt' : unassignedCount cw ((v, wstar) :: a) ≤ n := by
        have := unassignedCount_cons_lt cw a v wstar hv1 hv2
        omega
      have key : ∀ (ws : List Word), wstar ∈ ws →
          ∀ (hvp : v ∈ cw.vars ∧ a.lookup v = none),
          ∃ r, tryWords cw dom a v hvp ws = some r := by
        intro ws
        induction ws with
        | nil => intro hmem _; simp at hmem
        | cons w ws ihw =>
          intro hmem hvp
          rw [tryWords]
          rcases List.mem_cons.mp hmem with rfl | hmem2
          · rw [if_pos hccons]
            rcases ihn cw dom ((v, wstar) :: a) S hcnt' hScomp hScons hdom
              hsub' hkeys' with ⟨r, hr⟩
            rw [hr]
            exact ⟨r, rfl⟩
          · by_cases hca : consistent cw ((v, w) :: a) = true
            · rw [if_pos hca]
              cases hbt : backtrack cw dom ((v, w) :: a) with
              | some r => exact ⟨r, rfl⟩
              | none => exact ihw hmem2 hvp
            · rw [if_neg hca]
              exact ihw hmem2 hvp
      rcases key (dom v) hwdom (select_mem_unassigned cw dom a v hsel) with ⟨r, hr⟩
      refine ⟨r, ?_⟩
      rw [backtrack, if_neg hcomp]
      split
      · rename_i hsel2
        rw [hsel2] at hsel
        exact absurd hsel (by simp)
      · rename_i v2 hsel2
        rw [hsel2] at hsel
        injection hsel with hsel
        subst hsel
        exact hr

theorem countP_add_countP_not {α : Type} (p : α → Bool) (l : List α) :
    l.countP p + l.countP (fun x => !(p x)) = l.length := by
  induction l with
  | nil => simp
  | cons a t ih =>
    by_cases hp : p a = true
    · rw [List.countP_cons_of_pos _ _ hp,
        List.countP_cons_of_neg _ _ (by simp [hp]), List.length_cons]
      omega
    · rw [List.countP_cons_of_neg _ _ hp,
        List.countP_cons_of_pos _ _ (by simp [Bool.eq_false_iff.mpr hp]),
        List.length_cons]
      omega

theorem sum_map_add_eq {α : Type} (l : List α) (f g : α → Nat) :
    (l.map f).sum + (l.map g).sum = (l.map (fun x => f x + g x)).sum := by
  induction l with
  | nil => simp
  | cons a t ih =>
    simp only [List.map_cons, List.sum_cons]
    omega

/-- Modelled from the spec: the conflict count of a candidate word — the
number of candidate words of still unassigned neighbours that the word
would eliminate, i.e. that disagree at the overlap position. -/
def conflictCount (cw : Crossword) (dom : Variable → List Word)
    (a : Assignment) (v : Variable) (w : Word) : Nat :=
  ((cw.neighbors v).map (fun nb =>
    if (a.lookup nb).isSome then 0
    else
      match cw.overlaps v nb with
      | none => 0
      | some (i, j) => (dom nb).countP (fun wn => !(w[i]? == wn[j]?)))).sum

/-- The per-word-independent bound: total size of the domains of the
unassigned neighbours with a defined overlap. -/
def neighborTotal (cw : Crossword) (dom : Variable → List Word)
    (a : Assignment) (v : Variable) : Nat :=
  ((cw.neighbors v).map (fun nb =>
    if (a.lookup nb).isSome then 0
    else
      match cw.overlaps v nb with
      | none => 0
      | some _ => (dom nb).length)).sum

theorem agree_add_conflict (cw : Crossword) (dom : Variable → List Word)
    (a : Assignment) (v : Variable) (w : Word) :
    agreementCount cw dom a v w + conflictCount cw dom a v w =
      neighborTotal cw dom a v := by
  unfold agreementCount conflictCount neighborTotal
  rw [sum_map_add_eq]
  congr 1
  apply List.map_congr_left
  intro nb _
  by_cases hnb : (a.lookup nb).isSome
  · simp [hnb]
  · simp only [hnb, if_false, Bool.false_eq_true]
    cases hov : cw.overlaps v nb with
    | none => simp
    | some p =>
      obtain ⟨i, j⟩ := p
      exact countP_add_countP_not _ _

theorem conflict_le_of_agree_ge (cw : Crossword) (dom : Variable → List Word)
    (a : Assignment) (v : Variable) (w1 w2 : Word)
    (h : agreementCount cw dom a v w2 ≤ agreementCount cw dom a v w1) :
    conflictCount cw dom a v w1 ≤ conflictCount cw dom a v w2 := by
  have h1 := agree_add_conflict cw dom a v w1
  have h2 := agree_add_conflict cw dom a v w2
  omega

/-! Concrete instances used by counterexamples and witnesses. -/

def vA : Variable := ⟨0, 0, 3, Direction.across⟩

def vB : Variable := ⟨0, 0, 3, Direction.down⟩

/-- A two-variable crossword: a 3-letter across word and a 3-letter down
word sharing their first cell. -/
def cw2 : Crossword where
  vars := [vA, vB]
  words := [['c','a','t'], ['c','a','r'], ['t','a','n']]
  overlaps := fun x y =>
    if x = vA ∧ y = vB then some (0, 0)
    else if x = vB ∧ y = vA then some (0, 0)
    else none
  neighbors := fun v =>
    if v = vA then [vB] else if v = vB then [vA] else []

def dom2 : Variable → List Word :=
  fun v => if v = vA then [['c','a','t'], ['t','a','n']]
    else if v = vB then [['c','a','r'], ['t','a','n']] else []

def vA1 : Variable := ⟨0, 0, 2, Direction.across⟩

def vB1 : Variable := ⟨1, 0, 2, Direction.across⟩

def vC1 : Variable := ⟨0, 0, 2, Direction.down⟩

/-- A three-variable crossword in which `vA1` has no neighbours while
`vB1` and `vC1` are mutual neighbours. -/
def cw1 : Crossword where
  vars := [vA1, vB1, vC1]
  words := [['a','b'], ['c','d'], ['e','f'], ['g','h']]
  overlaps := fun x y =>
    if x = vB1 ∧ y = vC1 then some (0, 1)
    else if x = vC1 ∧ y = vB1 then some (1, 0)
    else none
  neighbors := fun v =>
    if v = vB1 then [vC1] else if v = vC1 then [vB1] else []

def dom1 : Variable → List Word :=
  fun v => if v = vA1 then [['a','b']]
    else if v = vB1 then [['c','d']]
    else if v = vC1 then [['e','f'], ['g','h']] else []

/-- C1: the claim (and the docstring of `select_unassigned_variable`) says
ties on domain size are broken towards the variable with the MOST
neighbours; the code sorts the tied bucket by neighbour count in ascending
order and returns the first, i.e. the variable with the FEWEST
neighbours.  Concretely: with all variables unassigned, `vA1` (degree 0)
and `vB1` (degree 1) tie at the minimal domain size 1, and the code
returns `vA1` although `vB1` has strictly more neighbours. -/
theorem c1_select_ties_broken_towards_low_degree :
    select_unassigned_variable cw1 dom1 [] = some vA1 ∧
    vB1 ∈ cw1.vars ∧
    (([] : Assignment).lookup vB1) = none ∧
    (dom1 vA1).length = (dom1 vB1).length ∧
    (cw1.neighbors vA1).length < (cw1.neighbors vB1).length := by
  decide

/-- C2: `order_domain_values` returns exactly the words of the domain of
`var`, in non-decreasing order of conflict count — the number of candidate
words of unassigned neighbours that the word would eliminate (disagree at
the overlap position).  The code counts agreements and sorts in descending
order, which is equivalent. -/
theorem c2_order_domain_values_ascending_conflicts (cw : Crossword)
    (dom : Variable → List Word) (a : Assignment) (v : Variable) :
    (order_domain_values cw dom v a).Perm (dom v) ∧
    (order_domain_values cw dom v a).Pairwise
      (fun w1 w2 => conflictCount cw dom a v w1 ≤ conflictCount cw dom a v w2) := by
  unfold order_domain_values
  have hperm := List.perm_insertionSort (fun p q : Word × Nat => q.2 ≤ p.2)
    ((dom v).map (fun w => (w, agreementCount cw dom a v w)))
  have hfact : ∀ p ∈ (((dom v).map
      (fun w => (w, agreementCount cw dom a v w))).insertionSort
      (fun p q => q.2 ≤ p.2)), p.2 = agreementCount cw dom a v p.1 := by
    intro p hp
    have hp2 := hperm.mem_iff.mp hp
    rcases List.mem_map.mp hp2 with ⟨w, hw, rfl⟩
    rfl
  constructor
  · have hmap := hperm.map Prod.fst
    rw [List.map_map] at hmap
    have hid : List.map (Prod.fst ∘ fun w => (w, agreementCount cw dom a v w))
        (dom v) = dom v := by
      rw [show (Prod.fst ∘ fun w => (w, agreementCount cw dom a v w)) = id from rfl]
      exact List.map_id _
    rw [hid] at hmap
    exact hmap
  · haveI htot : IsTotal (Word × Nat) (fun p q => q.2 ≤ p.2) :=
      ⟨fun p q => Nat.le_total q.2 p.2⟩
    haveI htrans : IsTrans (Word × Nat) (fun p q => q.2 ≤ p.2) :=
      ⟨fun p q s h1 h2 => Nat.le_trans h2 h1⟩
    have hsorted := List.sorted_insertionSort (fun p q : Word × Nat => q.2 ≤ p.2)
      ((dom v).map (fun w => (w, agreementCount cw dom a v w)))
    apply List.pairwise_map.mpr
    refine List.Pairwise.imp_of_mem ?_ hsorted
    intro p q hp hq hr
    apply conflict_le_of_agree_ge
    rw [← hfact p hp, ← hfact q hq]
    exact hr

/-- C7: `revise(x, y)` is a no-op returning `False` when the overlap is
`None`; otherwise it keeps in the domain of `x` exactly the words with an
agreeing partner in the domain of `y`, leaves every other domain (in
particular that of `y`, the overlap map being defined only for distinct
variables) unchanged, and returns `True` iff at least one word was
removed. -/
theorem c7_revise_characterization (cw : Crossword)
    (dom : Variable → List Word) (x y : Variable) :
    (cw.overlaps x y = none → revise cw dom x y = (dom, false)) ∧
    (∀ i j, cw.overlaps x y = some (i, j) →
      ((∀ w, w ∈ (revise cw dom x y).1 x ↔
          w ∈ dom x ∧ ∃ wy ∈ dom y, w[i]? = wy[j]?) ∧
       (∀ v, v ≠ x → (revise cw dom x y).1 v = dom v) ∧
       (x ≠ y → (revise cw dom x y).1 y = dom y) ∧
       ((revise cw dom x y).2 = true ↔
          ∃ w ∈ dom x, w ∉ (revise cw dom x y).1 x))) := by
  constructor
  · exact revise_eq_none cw dom x y
  · intro i j hov
    refine ⟨revise_mem_iff cw dom x y i j hov, revise_other_eq cw dom x y, ?_, ?_⟩
    · intro hxy
      exact revise_other_eq cw dom x y y (Ne.symm hxy)
    · rw [revise_flag_iff cw dom x y i j hov]
      constructor
      · intro hne
        by_contra hall
        push_neg at hall
        apply hne
        rw [revise_eq_some cw dom x y i j hov]
        simp only [Function.update_same]
        apply List.filter_eq_self.mpr
        intro w hw
        have := hall w hw
        rw [revise_eq_some cw dom x y i j hov] at this
        simp only [Function.update_same] at this
        rcases List.mem_filter.mp this with ⟨-, hpred⟩
        exact hpred
      · intro ⟨w, hw, hnot⟩ heq
        rw [heq] at hnot
        exact hnot hw

/-- C8: after `enforce_node_consistency` every remaining word has exactly
the length of its variable, and each domain only shrank. -/
theorem c8_node_consistency (dom : Variable → List Word) (v : Variable) :
    (∀ w ∈ enforce_node_consistency dom v, w.length = v.length) ∧
    (∀ w ∈ enforce_node_consistency dom v, w ∈ dom v) := by
  unfold enforce_node_consistency
  constructor
  · intro w hw
    have := List.of_mem_filter hw
    simpa using this
  · intro w hw
    exact List.mem_of_mem_filter hw

/-- C3, counterexample: `backtrack` returns a complete starting assignment
unchanged without checking `consistent`, so from a complete but
inconsistent seed (both variables bound to the same word) it returns a
non-failure result that violates `consistent`. -/
theorem c3_counterexample_inconsistent_seed :
    backtrack cw2 dom2 [(vA, ['c','a','t']), (vB, ['c','a','t'])] =
      some [(vA, ['c','a','t']), (vB, ['c','a','t'])] ∧
    consistent cw2 [(vA, ['c','a','t']), (vB, ['c','a','t'])] = false := by
  constructor
  · rw [backtrack]
    simp +decide
  · decide

/-- C3, amended: for every CONSISTENT starting partial assignment (in
particular the empty one used by `solve`), a non-failure result of
`backtrack` is complete and consistent. -/
theorem c3_backtrack_sound (cw : Crossword) (dom : Variable → List Word)
    (a r : Assignment) (hcons : consistent cw a = true)
    (h : backtrack cw dom a = some r) :
    assignment_complete cw r = true ∧ consistent cw r = true :=
  backtrack_sound_aux (unassignedCount cw a) cw dom a r le_rfl hcons h

theorem c3_witness :
    assignment_complete cw2 [(vA, ['c','a','t']), (vB, ['c','a','r'])] = true ∧
    consistent cw2 [(vA, ['c','a','t']), (vB, ['c','a','r'])] = true :=
  c3_backtrack_sound cw2 dom2 [(vA, ['c','a','t']), (vB, ['c','a','r'])]
    [(vA, ['c','a','t']), (vB, ['c','a','r'])] (by decide)
    (by rw [backtrack]; simp +decide)

/-- C4: if some complete consistent assignment `S` draws every word from
the current domains, then `backtrack` started on the empty assignment
returns a non-failure result — itself complete and consistent. -/
theorem c4_backtrack_complete (cw : Crossword) (dom : Variable → List Word)
    (S : Assignment) (hScomp : assignment_complete cw S = true)
    (hScons : consistent cw S = true) (hdom : ∀ p ∈ S, p.2 ∈ dom p.1) :
    ∃ r, backtrack cw dom [] = some r ∧ assignment_complete cw r = true ∧
      consistent cw r = true := by
  rcases backtrack_complete_aux (unassignedCount cw ([] : Assignment)) cw dom
    [] S le_rfl hScomp hScons hdom (by simp) (by simp) with ⟨r, hr⟩
  have hsound := backtrack_sound_aux (unassignedCount cw ([] : Assignment))
    cw dom [] r le_rfl (by rfl) hr
  exact ⟨r, hr, hsound⟩

theorem c4_witness :
    ∃ r, backtrack cw2 dom2 [] = some r ∧ assignment_complete cw2 r = true ∧
      consistent cw2 r = true :=
  c4_backtrack_complete cw2 dom2 [(vA, ['c','a','t']), (vB, ['c','a','r'])]
    (by decide) (by decide) (by decide)

/-- C5: if `ac3()` with the default arc list succeeds on a well-formed
crossword, every pair of neighbouring variables with a defined overlap is
arc consistent: each remaining word of `x` agrees with some remaining word
of `y` at the overlap indices. -/
theorem c5_ac3_arc_consistency (cw : Crossword) (dom dom' : Variable → List Word)
    (q' : List (Variable × Variable)) (hcw : CWok cw)
    (h : ac3 cw dom none = some (dom', q', true)) :
    ∀ x ∈ cw.vars, ∀ y ∈ cw.neighbors x, ∀ i j,
      cw.overlaps x y = some (i, j) →
      ∀ wx ∈ dom' x, ∃ wy ∈ dom' y, wx[i]? = wy[j]? := by
  unfold ac3 at h
  have hqok : ∀ p ∈ initialArcs cw, p.1 ∈ cw.vars ∧ p.2 ∈ cw.vars := by
    intro p hp
    rcases List.mem_flatMap.mp hp with ⟨v, hv, hp2⟩
    rcases List.mem_map.mp hp2 with ⟨n, hn, rfl⟩
    exact ⟨hv, hcw.1 v hv n hn⟩
  have hinv : ∀ a ∈ cw.vars, ∀ b ∈ cw.neighbors a,
      (a, b) ∈ initialArcs cw ∨ arcOK cw dom a b := by
    intro a ha b hb
    exact Or.inl (List.mem_flatMap.mpr ⟨a, ha, List.mem_map.mpr ⟨b, hb, rfl⟩⟩)
  intro x hx y hy i j hov wx hwx
  exact ac3Loop_arc_consistent cw hcw dom (initialArcs cw) dom' q' hqok hinv
    h x hx y hy i j hov wx hwx

theorem c5_witness :
    CWok cw2 ∧ ∃ wy ∈ dom2 vB, (['c','a','t'] : Word)[0]? = wy[0]? :=
  ⟨by unfold CWok; decide,
   c5_ac3_arc_consistency cw2 dom2 dom2 [] (by unfold CWok; decide)
    (by
      show ac3Loop cw2 dom2 [(vA, vB), (vB, vA)] = some (dom2, [], true)
      rw [ac3Loop.eq_def]
      simp only [show cw2.overlaps vA vB = some (0, 0) from by decide,
        show (revise cw2 dom2 vA vB).2 = false from by decide,
        show (vA ∈ cw2.vars) = True from by simp +decide, if_true, if_false,
        dite_eq_ite, Bool.false_eq_true, ite_false]
      rw [ac3Loop.eq_def]
      simp only [show cw2.overlaps vB vA = some (0, 0) from by decide,
        show (revise cw2 dom2 vB vA).2 = false from by decide,
        show (vB ∈ cw2.vars) = True from by simp +decide, if_true, if_false,
        dite_eq_ite, Bool.false_eq_true, ite_false]
      rw [ac3Loop.eq_def])
    vA (by decide) vB (by decide) 0 0 (by decide) ['c','a','t'] (by decide)⟩

/-- C6: whatever the initial arc list (caller-supplied or the default),
when `ac3` returns, every domain is a subset of what it was before the
call, and a `False` result means some domain is empty at that point. -/
theorem c6_ac3_monotone (cw : Crossword) (dom : Variable → List Word)
    (arcs : Option (List (Variable × Variable)))
    (dom' : Variable → List Word) (q' : List (Variable × Variable)) (b : Bool)
    (h : ac3 cw dom arcs = some (dom', q', b)) :
    (∀ v, ∀ w ∈ dom' v, w ∈ dom v) ∧ (b = false → ∃ v, dom' v = []) := by
  unfold ac3 at h
  cases arcs with
  | none =>
    rcases ac3Loop_sublist cw dom (initialArcs cw) dom' q' b h with ⟨hsub, hempty⟩
    exact ⟨fun v w hw => (hsub v).subset hw, hempty⟩
  | some l =>
    rcases ac3Loop_sublist cw dom l dom' q' b h with ⟨hsub, hempty⟩
    exact ⟨fun v w hw => (hsub v).subset hw, hempty⟩

theorem c6_witness :
    (∀ v, ∀ w ∈ dom2 v, w ∈ dom2 v) ∧ (true = false → ∃ v, dom2 v = []) :=
  c6_ac3_monotone cw2 dom2 (some [(vA, vB)]) dom2 [] true
    (by
      show ac3Loop cw2 dom2 [(vA, vB)] = some (dom2, [], true)
      rw [ac3Loop.eq_def]
      simp only [show cw2.overlaps vA vB = some (0, 0) from by decide,
        show (revise cw2 dom2 vA vB).2 = false from by decide,
        show (vA ∈ cw2.vars) = True from by simp +decide, if_true, if_false,
        dite_eq_ite, Bool.false_eq_true, ite_false]
      rw [ac3Loop.eq_def])

/-- C9: any assignment binding two distinct variables to the identical
word is rejected by `consistent`. -/
theorem c9_consistent_rejects_repeated_words (cw : Crossword) (a : Assignment)
    (v1 v2 : Variable) (w : Word) (h12 : v1 ≠ v2)
    (h1 : (v1, w) ∈ a) (h2 : (v2, w) ∈ a) :
    consistent cw a = false := by
  cases hc : consistent cw a with
  | false => rfl
  | true =>
    have hnodup := (consistentGo_nodup cw a a [] hc).1
    have hpair : a.Pairwise (fun p q => p.2 ≠ q.2) := List.pairwise_map.mp hnodup
    have hne : ((v1, w) : Variable × Word) ≠ (v2, w) := by
      intro hE
      exact h12 (congrArg Prod.fst hE)
    have hsymmR : Symmetric (fun p q : Variable × Word => p.2 ≠ q.2) :=
      fun _ _ h3 => h3.symm
    have hR := hpair.forall hsymmR h1 h2 hne
    exact absurd rfl hR

theorem c9_witness :
    consistent cw2 [(vA, ['c','a','t']), (vB, ['c','a','t'])] = false :=
  c9_consistent_rejects_repeated_words cw2
    [(vA, ['c','a','t']), (vB, ['c','a','t'])] vA vB ['c','a','t']
    (by decide) (by decide) (by decide)

/-- C10: `ac3` works directly on the caller-supplied arc list (modelled
here by threading the list through the loop as state, mirroring the
in-place `pop(0)`/`append` mutations); whenever it returns success the
final contents of that list are empty. -/
theorem c10_ac3_success_empties_arcs (cw : Crossword)
    (dom : Variable → List Word) (arcs : List (Variable × Variable))
    (dom' : Variable → List Word) (q' : List (Variable × Variable))
    (h : ac3 cw dom (some arcs) = some (dom', q', true)) : q' = [] := by
  unfold ac3 at h
  exact ac3Loop_success_queue cw dom arcs dom' q' true h rfl

theorem c10_witness : ([] : List (Variable × Variable)) = [] :=
  c10_ac3_success_empties_arcs cw2 dom2 [(vB, vA)] dom2 []
    (by
      show ac3Loop cw2 dom2 [(vB, vA)] = some (dom2, [], true)
      rw [ac3Loop.eq_def]
      simp only [show cw2.overlaps vB vA = some (0, 0) from by decide,
        show (revise cw2 dom2 vB vA).2 = false from by decide,
        show (vB ∈ cw2.vars) = True from by simp +decide, if_true, if_false,
        dite_eq_ite, Bool.false_eq_true, ite_false]
      rw [ac3Loop.eq_def])

theorem c7_witness : (revise cw2 dom2 vA vB).1 vB = dom2 vB :=
  ((c7_revise_characterization cw2 dom2 vA vB).2 0 0 (by decide)).2.2.1 (by decide)

theorem c2_witness :
    (order_domain_values cw2 dom2 vA []).Perm (dom2 vA) ∧
    (order_domain_values cw2 dom2 vA []).Pairwise
      (fun w1 w2 => conflictCount cw2 dom2 [] vA w1 ≤ conflictCount cw2 dom2 [] vA w2) :=
  c2_order_domain_values_ascending_conflicts cw2 dom2 [] vA

theorem c8_witness :
    (∀ w ∈ enforce_node_consistency dom2 vA, w.length = vA.length) ∧
    (∀ w ∈ enforce_node_consistency dom2 vA, w ∈ dom2 vA) :=
  c8_node_consistency dom2 vA
